import Mathlib

/-!
Verification development for the quarterly-report summarisation pipeline.

Shallow embedding of the three core stages of the repository:
  * `pipeline/chunker.py`    — greedy page-concatenation chunker (`chunk_pages`),
  * `pipeline/ranker.py`     — value-scoring heuristic (`score_value`) and ranking,
  * `pipeline/summariser.py` — bullet extraction, fallback sentence selection,
                               page tagging, per-chunk driver (`summarise_chunks`).

Strings are modelled as `List Char`; Python machine integers are unbounded, so
`Nat`/`Int` are exact.  Python regular-expression operations are embedded as
executable scanners whose semantics match the concrete patterns used by the
source (each is derived next to its definition).  The text-generation backend
is an external collaborator and is modelled as an oracle `Nat → List Char →
Option (List Char)` (chunk index and prompt to optional raw output; `none`
models a raised request exception).
-/

set_option maxRecDepth 20000

namespace QRS

/-! ### Python string helpers -/

/-- Python whitespace for `str.strip` / `\s` (ASCII range, which is all the
source ever feeds these functions). -/
def isPySpace (c : Char) : Bool :=
  c = ' ' || c = '\t' || c = '\n' || c = '\r' || c = '\x0b' || c = '\x0c'

/-- `str.strip()` with no arguments: drop leading and trailing whitespace. -/
def pyStrip (s : List Char) : List Char :=
  ((s.dropWhile isPySpace).reverse.dropWhile isPySpace).reverse

/-- Decimal digit character for a digit value (used for `str(n)`). -/
def digitChar (d : Nat) : Char := Char.ofNat (48 + d % 10)

/-- Decimal rendering with a structural fuel argument (the recursion divides
by 10, so any fuel above the argument suffices). -/
def natDigitsF : Nat → Nat → List Char
  | 0, _ => []
  | fuel + 1, n =>
    if n < 10 then [digitChar n] else natDigitsF fuel (n / 10) ++ [digitChar (n % 10)]

/-- Decimal rendering of a natural number, as Python `str(n)` produces. -/
def natDigits (n : Nat) : List Char := natDigitsF (n + 1) n

/-- `s[-n:]` for `n > 0`: the last `n` characters (all of `s` when shorter). -/
def pyLastN (n : Nat) (s : List Char) : List Char := s.drop (s.length - n)

/-- Python `or` on optional page numbers: `None` and `0` are falsy. -/
def pyOr (a b : Option Nat) : Option Nat :=
  match a with
  | some n => if n = 0 then b else some n
  | none => b

/-- Python `x or d` returning the default when `x` is `None` or `0`. -/
def pyOrD (a : Option Nat) (d : Nat) : Nat :=
  match a with
  | some n => if n = 0 then d else n
  | none => d

/-- Substring test, Python `pat in s`. -/
def containsSub (pat : List Char) : List Char → Bool
  | [] => pat.isEmpty
  | c :: rest => pat.isPrefixOf (c :: rest) || containsSub pat rest

/-- Scanner for `re.sub(r"\s+", " ", s)`: the Boolean records whether the
previous character was whitespace (inside a run only the first character
emits the single replacement space). -/
def collapseWsGo (inRun : Bool) : List Char → List Char
  | [] => []
  | c :: rest =>
    if isPySpace c then
      (if inRun then [] else [' ']) ++ collapseWsGo true rest
    else c :: collapseWsGo false rest

/-- `re.sub(r"\s+", " ", s)`: collapse each maximal whitespace run to one space. -/
def collapseWs (s : List Char) : List Char := collapseWsGo false s

/-- Strip all trailing `'.'` characters, Python `s.rstrip(".")`. -/
def rstripDots (s : List Char) : List Char :=
  (s.reverse.dropWhile (fun c => c = '.')).reverse

/-- Python string `<` (lexicographic by code point). -/
def pyStrLt : List Char → List Char → Bool
  | [], [] => false
  | [], _ :: _ => true
  | _ :: _, [] => false
  | a :: as_, b :: bs => if a < b then true else if b < a then false else pyStrLt as_ bs

/-! ### Stable sorting

Python `list.sort` / `sorted` are stable.  A stable sort is determined
uniquely by its comparison, so we model it by stable insertion sort:
`stInsert prec x l` puts `x` (the element that came *earlier* in the input)
before the first element `y` of `l` that is not strictly required to precede
it (`prec y x = false`). -/

def stInsert (prec : α → α → Bool) (x : α) : List α → List α
  | [] => [x]
  | y :: ys => if prec y x then y :: stInsert prec x ys else x :: y :: ys

def stSort (prec : α → α → Bool) : List α → List α
  | [] => []
  | x :: xs => stInsert prec x (stSort prec xs)

/-! ### Chunker (`pipeline/chunker.py`)

```python
def chunk_pages(pages, max_chars=6000, overlap=400):
    if max_chars <= 1000:
        raise ValueError("max_chars too small; recommend >= 3000")
    if overlap < 0 or overlap >= max_chars:
        raise ValueError("overlap must be >=0 and < max_chars")
    chunks = []
    buf, start_p, end_p = [], None, None
    size = 0
    for pnum, text in pages:
        part = f"\n[p.\x7bpnum\x7d]\n\x7btext\x7d\n"
        part_len = len(part)
        if not buf:
            start_p = pnum
        if size + part_len > max_chars and buf:
            joined = "".join(buf)
            chunks.append((joined, start_p, end_p or start_p))
            tail = joined[-overlap:] if overlap else ""
            buf, size = ([tail] if tail else []), len(tail)
            start_p = pnum if not tail else start_p
        buf.append(part)
        size += part_len
        end_p = pnum
    if buf:
        joined = "".join(buf)
        chunks.append((joined, start_p or 1, end_p or (start_p or 1)))
    return chunks
```

A raised `ValueError` is modelled as `Except.error`.  The `start_p`/`end_p`
variables start as `None`, hence `Option Nat` in the state; the chunk tuples
carry them as the code left them at append time. -/

abbrev Page := Nat × List Char

abbrev Chunk := List Char × Option Nat × Option Nat

/-- `f"\n[p.\x7bpnum\x7d]\n\x7btext\x7d\n"` — the page marker plus page text. -/
def formatPage (pg : Page) : List Char :=
  '\n' :: '[' :: 'p' :: '.' :: (natDigits pg.1 ++ ']' :: '\n' :: (pg.2 ++ ['\n']))

/-- Loop state of `chunk_pages`. -/
structure CState where
  chunks : List Chunk
  buf : List (List Char)
  start_p : Option Nat
  end_p : Option Nat
  size : Nat

def initCState : CState := ⟨[], [], none, none, 0⟩

/-- The body of `if size + part_len > max_chars and buf:` — close the chunk
and seed the next buffer with the overlap tail. -/
def closeChunk (ov : Nat) (pnum : Nat) (st : CState) : CState :=
  let joined := st.buf.flatten
  let tail := if ov ≠ 0 then pyLastN ov joined else []
  { chunks := st.chunks ++ [(joined, st.start_p, pyOr st.end_p st.start_p)]
    buf := if tail ≠ [] then [tail] else []
    size := tail.length
    start_p := if tail = [] then some pnum else st.start_p
    end_p := st.end_p }

/-- One iteration of the `for pnum, text in pages:` loop. -/
def chunkStep (mc ov : Nat) (st : CState) (pg : Page) : CState :=
  let part := formatPage pg
  let st1 := if st.buf = [] then { st with start_p := some pg.1 } else st
  let st2 := if mc < st1.size + part.length ∧ st1.buf ≠ [] then closeChunk ov pg.1 st1 else st1
  { st2 with buf := st2.buf ++ [part], size := st2.size + part.length, end_p := some pg.1 }

/-- The trailing `if buf:` flush after the loop. -/
def chunkFinish (st : CState) : List Chunk :=
  if st.buf ≠ [] then
    st.chunks ++ [(st.buf.flatten, some (pyOrD st.start_p 1),
      some (pyOrD st.end_p (pyOrD st.start_p 1)))]
  else st.chunks

def chunk_pages (pages : List Page) (max_chars overlap : Int) : Except String (List Chunk) :=
  if max_chars ≤ 1000 then .error "max_chars too small; recommend >= 3000"
  else if overlap < 0 ∨ max_chars ≤ overlap then .error "overlap must be >=0 and < max_chars"
  else .ok (chunkFinish (pages.foldl (chunkStep max_chars.toNat overlap.toNat) initCState))

/-- Projection of a successful run (empty list on error). -/
def chunksOf (e : Except String (List Chunk)) : List Chunk :=
  match e with
  | .ok cs => cs
  | .error _ => []

/-- Whether the call raised a configuration `ValueError`. -/
def isCfgError (e : Except String (List Chunk)) : Bool :=
  match e with
  | .error _ => true
  | .ok _ => false

/-- Largest formatted page length of the input (bound used in the corrected
size invariant). -/
def maxPartLen (pages : List Page) : Nat :=
  pages.foldr (fun pg m => max (formatPage pg).length m) 0

/-- Consecutive chunks are linked by the overlap tail: each chunk after the
first begins with the last `ov` characters of its predecessor. -/
def ChunkAdj (ov : Nat) : List Chunk → Prop
  | [] => True
  | [_] => True
  | a :: b :: rest => (pyLastN ov a.1 <+: b.1) ∧ ChunkAdj ov (b :: rest)

/-! ### Ranker (`pipeline/ranker.py`)

```python
def score_value(point: str) -> float:
    score = 0.0
    text = point.lower()
    nums = re.findall(r"\d+", point)
    score += min(len(nums), 5) * 5
    score += 10 * len(re.findall(r"\d+%|\+\d+pp|-\d+pp", point))
    if re.search(r"\$\d+", point):
        score += 15
    kpis = ["revenue", "market share", "retention", "awareness", "guidance",
            "customers", "growth", "qoq", "yoy"]
    score += 5 * sum(1 for k in kpis if k in text)
    return round(score, 1)
```

Every contribution is an integer, so the float accumulator holds an exact
integer and `round(score, 1)` is the identity; the score is therefore a `Nat`.
-/

/-- Scanner for `re.findall(r"\d+", s)`: `cur` holds the digits of the run
in progress, reversed; a run is emitted when it ends. -/
def digitRunsGo (cur : List Char) : List Char → List (List Char)
  | [] => if cur = [] then [] else [cur.reverse]
  | c :: rest =>
    if c.isDigit then digitRunsGo (c :: cur) rest
    else if cur = [] then digitRunsGo [] rest
    else cur.reverse :: digitRunsGo [] rest

/-- `re.findall(r"\d+", s)`: the maximal digit runs of `s`, left to right. -/
def reFindallDigits (s : List Char) : List (List Char) := digitRunsGo [] s

/-- `len(re.findall(r"\d+%|\+\d+pp|-\d+pp", s))`.

The scan mirrors the regex engine: at a digit the greedy `\d+` eats the whole
maximal run and `%` can only follow at the run's end (a `%` is not a digit),
so a failed run yields no match at any of its positions and the scan resumes
at the first non-digit; at `+`/`-` the `pp` suffix likewise can only follow
the maximal run.  Matches are non-overlapping, the scan resumes after each
match. -/
def countPctF : Nat → List Char → Nat
  | 0, _ => 0
  | fuel + 1, s =>
    match s with
    | [] => 0
    | c :: rest =>
      if c.isDigit then
        match rest.dropWhile Char.isDigit with
        | '%' :: after => 1 + countPctF fuel after
        | other => countPctF fuel other
      else if (c = '+' || c = '-') && (rest.headD ' ').isDigit then
        match rest.dropWhile Char.isDigit with
        | 'p' :: 'p' :: after => 1 + countPctF fuel after
        | _ => countPctF fuel rest
      else countPctF fuel rest

def countPct (s : List Char) : Nat := countPctF s.length s

/-- `re.search(r"\$\d+", s)` as a Boolean: some `$` immediately followed by a
digit. -/
def hasCurrency : List Char → Bool
  | [] => false
  | c :: rest => (c = '$' && (rest.headD ' ').isDigit) || hasCurrency rest

/-- The fixed KPI keyword list of `score_value`. -/
def kpiTerms : List (List Char) :=
  ["revenue".toList, "market share".toList, "retention".toList, "awareness".toList,
   "guidance".toList, "customers".toList, "growth".toList, "qoq".toList, "yoy".toList]

def score_value (point : List Char) : Nat :=
  let text := point.map Char.toLower
  (min (reFindallDigits point).length 5) * 5
    + 10 * countPct point
    + (if hasCurrency point then 15 else 0)
    + 5 * (kpiTerms.countP (fun k => containsSub k text))

/-- The ranking core of `rank_points`:
`sorted(scored, key=lambda x: x[1], reverse=True)` over
`scored = [(p, score_value(p)) for p in points]`.  `sorted` with
`reverse=True` is a stable descending sort by score. -/
def rank_points (points : List (List Char)) : List (List Char × Nat) :=
  stSort (fun a b => b.2 < a.2) (points.map (fun p => (p, score_value p)))

/-- Spec-side count of maximal digit runs: positions where a digit follows a
non-digit (or the start).  The Boolean argument records whether the previous
character was a digit. -/
def runStartCount (prevD : Bool) : List Char → Nat
  | [] => 0
  | c :: rest => (if c.isDigit && !prevD then 1 else 0) + runStartCount c.isDigit rest

/-- Number of maximal digit runs, stated from the specification's words. -/
def specRunCount (s : List Char) : Nat := runStartCount false s

/-! ### Summariser (`pipeline/summariser.py`)

The parser, fallback selector, page tagger and the per-chunk loop of
`summarise_chunks`.  The Ollama backend call is an oracle
`gen : Nat → List Char → Option (List Char)` (chunk index, prompt);
`none` models a raised exception, which the loop's `try/except` turns into
an empty raw output. -/

/-- Python line boundaries of `str.splitlines` (the code points Python treats
as line breaks). -/
def isLineBoundary (c : Char) : Bool :=
  c = '\n' || c = '\r' || c = '\x0b' || c = '\x0c' ||
  c = Char.ofNat 0x1c || c = Char.ofNat 0x1d || c = Char.ofNat 0x1e ||
  c = Char.ofNat 0x85 || c = Char.ofNat 0x2028 || c = Char.ofNat 0x2029

def splitLinesGo (cur : List Char) : List Char → List (List Char)
  | [] => [cur.reverse]
  | '\r' :: '\n' :: rest =>
    cur.reverse :: (match rest with | [] => [] | _ :: _ => splitLinesGo [] rest)
  | c :: rest =>
    if isLineBoundary c then
      cur.reverse :: (match rest with | [] => [] | _ :: _ => splitLinesGo [] rest)
    else splitLinesGo (c :: cur) rest

/-- `str.splitlines()`: `""` gives `[]`; a trailing break adds no segment. -/
def pySplitlines (s : List Char) : List (List Char) :=
  match s with
  | [] => []
  | _ :: _ => splitLinesGo [] s

/-- One line against `_BULLET_LINE`:
`^\s*(?:[-–•*]|\d\x7b1,3\x7d[.)])\s+(?P<pt>.+?)\s*$`, then
`pt.strip()`, whitespace collapsed, kept when non-empty, emitted as `- pt`.

After the marker the regex needs at least one whitespace character, and the
captured group stripped of outer whitespace is exactly the stripped remainder
(the greedy `\s+`, the lazy `.+?` and the trailing `\s*$` only move the
group's boundaries inside whitespace).  A digit marker is 1-3 digits followed
by `.` or `)`; a longer digit run cannot match because backtracking only
re-lands on digits. -/
def matchBulletLine (ln : List Char) : Option (List Char) :=
  let l := ln.dropWhile isPySpace
  let afterMarker : Option (List Char) :=
    match l with
    | [] => none
    | c :: rest =>
      if c = '-' || c = '–' || c = '•' || c = '*' then some rest
      else
        let ds := l.takeWhile Char.isDigit
        if ds.length = 0 || 3 < ds.length then none
        else
          match l.drop ds.length with
          | p :: rest2 => if p = '.' || p = ')' then some rest2 else none
          | [] => none
  match afterMarker with
  | none => none
  | some rest =>
    match rest with
    | [] => none
    | w :: _ =>
      if isPySpace w then
        let pt := collapseWs (pyStrip rest)
        if pt = [] then none else some ('-' :: ' ' :: pt)
      else none

/-- `_extract_bullets`: bullet-looking lines of the raw model output. -/
def extract_bullets (raw : List Char) : List (List Char) :=
  (pySplitlines raw).filterMap matchBulletLine

/-- `\w` on the ASCII inputs the pipeline handles. -/
def isWordCh (c : Char) : Bool := c.isAlphanum || c = '_'

/-- `re.split` with `_SENTENCE = (?<!\w\.\w.)(?<![A-Z][a-z]\.)(?<=\.|\?|!)\s`:
split at a whitespace character preceded by `.`, `?` or `!`, unless the four
preceding characters match `\w\.\w.` or the three preceding match
`[A-Z][a-z]\.`.  `pre` is the reversed already-scanned prefix, so `pre[0]` is
the character just before the current one.  The matched whitespace character
is the separator and belongs to no segment. -/
def sentSplitGo (acc : List Char) (pre : List Char) : List Char → List (List Char)
  | [] => [acc.reverse]
  | c :: rs =>
    if isPySpace c
        && (match pre with
            | p1 :: _ => p1 = '.' || p1 = '?' || p1 = '!'
            | [] => false)
        && !(match pre with
            | _ :: p2 :: p3 :: p4 :: _ => isWordCh p4 && p3 = '.' && isWordCh p2
            | _ => false)
        && !(match pre with
            | p1 :: p2 :: p3 :: _ => p3.isUpper && p2.isLower && p1 = '.'
            | _ => false)
    then acc.reverse :: sentSplitGo [] (c :: pre) rs
    else sentSplitGo (c :: acc) (c :: pre) rs

def splitSentences (text : List Char) : List (List Char) := sentSplitGo [] [] text

/-- `re.search(r"\d%\b|\bpp\b|%\b", s)` as a Boolean.  A `\b` next to `%` is
a boundary only against a word character; the `pp` boundaries check the
previous (`prev`) and following characters. -/
def fbHasPct (prev : Option Char) : List Char → Bool
  | c1 :: c2 :: rest =>
    (c1.isDigit && c2 = '%' && (match rest with | w :: _ => isWordCh w | [] => false))
    || (c1 = 'p' && c2 = 'p'
        && (match prev with | some p => !isWordCh p | none => true)
        && (match rest with | w :: _ => !isWordCh w | [] => true))
    || (c1 = '%' && isWordCh c2)
    || fbHasPct (some c1) (c2 :: rest)
  | _ => false

/-- `re.search(r"\$\s*\d", s)` as a Boolean. -/
def fbHasCur : List Char → Bool
  | [] => false
  | '$' :: rest => ((rest.dropWhile isPySpace).headD ' ').isDigit || fbHasCur rest
  | _ :: rest => fbHasCur rest

/-- The keyword list of `_top_sentences`. -/
def fbKeywords : List (List Char) :=
  ["yoy".toList, "qoq".toList, "guidance".toList, "revenue".toList, "retention".toList,
   "market share".toList, "pricing".toList, "margin".toList]

/-- Per-sentence score of `_top_sentences`, in tenths.  The Python floats are
sums from \x7b3, 2, 2\x7d plus `0.3 * min(digits, 5)`; distinct exact values
differ by at least `0.1` while the float error is far below that, and equal
exact values arise only from identical contribution patterns, so ordering and
equality of the Python floats coincide with those of the exact tenths. -/
def fbScore (s : List Char) : Nat :=
  (if fbHasPct none s then 30 else 0)
    + (if fbHasCur s then 20 else 0)
    + (if fbKeywords.any (fun w => containsSub w (s.map Char.toLower)) then 20 else 0)
    + 3 * min (s.countP Char.isDigit) 5

/-- `_top_sentences`: split into candidate sentences, strip, drop empties,
score, stable-sort by sentence text ascending then by score descending
(Python sorts twice; both sorts are stable), keep the first `k`, collapse
whitespace and prefix `- `. -/
def top_sentences (text : List Char) (k : Nat) : List (List Char) :=
  let scored := (splitSentences text).filterMap (fun s0 =>
    let s := pyStrip s0
    if s = [] then none else some (fbScore s, s))
  let sorted1 := stSort (fun a b => pyStrLt a.2 b.2) scored
  let sorted2 := stSort (fun a b => b.1 < a.1) sorted1
  (sorted2.take k).map (fun p => '-' :: ' ' :: collapseWs p.2)

/-- The tag string
`f" [p.\x7bstart_page if start_page == end_page else f'\x7bstart_page\x7d-\x7bend_page\x7d'\x7d]"`. -/
def tagFor (sp ep : Nat) : List Char :=
  if sp = ep then ' ' :: '[' :: 'p' :: '.' :: (natDigits sp ++ [']'])
  else ' ' :: '[' :: 'p' :: '.' :: (natDigits sp ++ '-' :: (natDigits ep ++ [']']))

/-- `re.search(r"\[p\.\d", s)` at the head of the list. -/
def tagHere : List Char → Bool
  | '[' :: 'p' :: '.' :: d :: _ => d.isDigit
  | _ => false

/-- `re.search(r"\[p\.\d", s)` as a Boolean over the whole string. -/
def hasPageTagPat : List Char → Bool
  | [] => false
  | c :: rest => tagHere (c :: rest) || hasPageTagPat rest

/-- `_ensure_tag`: keep a point that already shows `[p.` plus a digit,
otherwise strip the trailing periods and append the chunk tag. -/
def ensure_tag (tag s : List Char) : List Char :=
  if hasPageTagPat s then s else rstripDots s ++ tag

/-- Scanner for Python `s.replace(pat, rep)` with a structural fuel argument
(each step consumes at least one character of `s`, so `s.length` fuel
suffices for a non-empty pattern). -/
def pyReplaceF (pat rep : List Char) : Nat → List Char → List Char
  | 0, s => s
  | fuel + 1, s =>
    match s with
    | [] => []
    | c :: rest =>
      if pat.isPrefixOf (c :: rest) then
        rep ++ pyReplaceF pat rep fuel ((c :: rest).drop pat.length)
      else c :: pyReplaceF pat rep fuel rest

/-- Python `s.replace(pat, rep)`, non-overlapping left-to-right (the source
only uses non-empty literal patterns). -/
def pyReplace (s pat rep : List Char) : List Char :=
  if pat = [] then s else pyReplaceF pat rep s.length s

/-- `_format_prompt`: literal substring substitution of the placeholders. -/
def format_prompt (template text : List Char) (sp ep : Nat) : List Char :=
  pyReplace (pyReplace (pyReplace template "\x7b\x7bTEXT\x7d\x7d".toList text)
      "\x7b\x7bSTART_PAGE\x7d\x7d".toList (natDigits sp))
    "\x7b\x7bEND_PAGE\x7d\x7d".toList (natDigits ep)

/-- A chunk as the summariser receives it: `(chunk_text, start_page, end_page)`. -/
abbrev SChunk := List Char × Nat × Nat

/-- The body of the per-chunk loop of `summarise_chunks`.  The Boolean records
whether the generation backend was invoked for this chunk.  A `none` from the
oracle is the `except Exception` branch, giving `raw = ""`; zero extracted
bullets route into the fallback on the chunk's *input* text. -/
def processChunk (template : List Char) (gen : Nat → List Char → Option (List Char))
    (idx : Nat) (c : SChunk) : List (List Char) × Bool :=
  let text_in := pyStrip c.1
  if text_in = [] then ([], false)
  else
    let prompt := format_prompt template text_in c.2.1 c.2.2
    let raw := (gen idx prompt).getD []
    let pts0 := extract_bullets raw
    let pts := if pts0 = [] then top_sentences text_in 6 else pts0
    (pts.map (ensure_tag (tagFor c.2.1 c.2.2)), true)

/-- `summarise_chunks`: every chunk is processed in order (`enumerate` starts
at 1) and the per-chunk points are concatenated. -/
def summarise_chunks (template : List Char) (gen : Nat → List Char → Option (List Char))
    (chunks : List SChunk) : List (List Char) :=
  ((chunks.enumFrom 1).map (fun ic => (processChunk template gen ic.1 ic.2).1)).flatten

/-- Index shift of the generation oracle (used to state that the pipeline
continues past each chunk). -/
def genShift (gen : Nat → List Char → Option (List Char)) : Nat → List Char → Option (List Char) :=
  fun i p => gen (i + 1) p

/-- An always-failing generation oracle (every backend call raises). -/
def genNone : Nat → List Char → Option (List Char) := fun _ _ => none

/-- Placeholder chunk for `List.getD` in concrete statements. -/
def dummyChunk : Chunk := ([], none, none)

/-- Invariant for the chunk-size bound: the running size mirrors the buffer,
and everything stays under `M`. -/
def Inv1 (M : Nat) (st : CState) : Prop :=
  st.size = st.buf.flatten.length ∧ st.size ≤ M ∧ ∀ c ∈ st.chunks, c.1.length ≤ M

/-- Invariant for the overlap seam: buffer pieces are non-empty and the
current buffer starts with the closing tail of the last emitted chunk. -/
def Inv7 (ov : Nat) (st : CState) : Prop :=
  (∀ b ∈ st.buf, b ≠ []) ∧
  (∀ lc, st.chunks.getLast? = some lc → pyLastN ov lc.1 <+: st.buf.flatten) ∧
  ChunkAdj ov st.chunks

/-- Invariant for start-page bookkeeping with a positive overlap: once the
first page is seen, `start_p` is frozen and every chunk records it. -/
def Inv2a (p1 : Nat) (st : CState) : Prop :=
  st.start_p = some p1 ∧ (∀ b ∈ st.buf, b ≠ []) ∧ st.buf ≠ [] ∧
  ∀ c ∈ st.chunks, c.2.1 = some p1

/-- Invariant for start-page bookkeeping with zero overlap: the buffer (and
every emitted chunk) starts with the formatted text of the page recorded as
its start page. -/
def Inv2b (pages : List Page) (st : CState) : Prop :=
  (st.buf ≠ [] → ∃ pg, pg ∈ pages ∧ st.start_p = some pg.1 ∧ formatPage pg <+: st.buf.flatten) ∧
  ∀ c ∈ st.chunks, ∃ pg, pg ∈ pages ∧ c.2.1 = some pg.1 ∧ formatPage pg <+: c.1

/-! ### General lemmas -/

theorem formatPage_ne_nil (pg : Page) : formatPage pg ≠ [] := by
  simp [formatPage]

theorem flatten_ne_nil {l : List (List Char)} (h : l ≠ []) (h2 : ∀ b ∈ l, b ≠ []) :
    l.flatten ≠ [] := by
  cases l with
  | nil => exact absurd rfl h
  | cons b t =>
    have hb : b ≠ [] := h2 b (by simp)
    simp only [List.flatten_cons, ne_eq, List.append_eq_nil]
    intro hc
    exact hb hc.1

theorem pyLastN_suffix (n : Nat) (l : List Char) : pyLastN n l <:+ l :=
  List.drop_suffix _ _

theorem pyLastN_length (n : Nat) (l : List Char) : (pyLastN n l).length = min n l.length := by
  simp only [pyLastN, List.length_drop]
  omega

theorem pyLastN_ne_nil {n : Nat} {l : List Char} (h1 : 0 < n) (h2 : l ≠ []) :
    pyLastN n l ≠ [] := by
  intro hc
  have hlen := pyLastN_length n l
  rw [hc] at hlen
  have hl : 0 < l.length := List.length_pos.mpr h2
  simp at hlen
  omega

theorem getLast?_snoc (l : List α) (a : α) : (l ++ [a]).getLast? = some a :=
  List.getLast?_concat _

theorem chunkAdj_snoc (ov : Nat) (cs : List Chunk) (c : Chunk) (h : ChunkAdj ov cs)
    (hlink : ∀ lc, cs.getLast? = some lc → pyLastN ov lc.1 <+: c.1) :
    ChunkAdj ov (cs ++ [c]) := by
  induction cs with
  | nil => simp [ChunkAdj]
  | cons a t ih =>
    cases t with
    | nil =>
      refine ⟨hlink a rfl, trivial⟩
    | cons b t2 =>
      obtain ⟨h1, h2⟩ := h
      exact ⟨h1, ih h2 (fun lc hl => hlink lc (by rwa [List.getLast?_cons_cons]))⟩

theorem chunkAdj_get (ov : Nat) (cs : List Chunk) (h : ChunkAdj ov cs) :
    ∀ i (h1 : i < cs.length) (h2 : i + 1 < cs.length),
      pyLastN ov (cs.get ⟨i, h1⟩).1 <+: (cs.get ⟨i + 1, h2⟩).1 := by
  induction cs with
  | nil => intro i h1; simp at h1
  | cons a t ih =>
    intro i h1 h2
    cases t with
    | nil => simp at h2
    | cons b t2 =>
      obtain ⟨hab, hrest⟩ := h
      cases i with
      | zero => simpa using hab
      | succ n =>
        simpa using ih hrest n (by simpa using Nat.lt_of_succ_lt_succ h1)
          (by simpa using Nat.lt_of_succ_lt_succ h2)

theorem pyLastN_zero (l : List Char) : pyLastN 0 l = [] := by
  simp [pyLastN]

theorem flatten_snoc (l : List (List Char)) (x : List Char) :
    (l ++ [x]).flatten = l.flatten ++ x := by
  simp

/-- The seeded tail is `joined[-overlap:]` in all cases (`overlap = 0` gives
the empty tail). -/
theorem closeChunk_tail (ov : Nat) (joined : List Char) :
    (if ov ≠ 0 then pyLastN ov joined else []) = pyLastN ov joined := by
  by_cases h : ov = 0
  · simp [h, pyLastN_zero]
  · simp [h]

theorem inv7_step (mc ov : Nat) (st : CState) (pg : Page) (h : Inv7 ov st) :
    Inv7 ov (chunkStep mc ov st pg) := by
  obtain ⟨hbufne, hlink, hadj⟩ := h
  by_cases hbe : st.buf = []
  · have heq : chunkStep mc ov st pg =
        { st with
          start_p := some pg.1
          buf := st.buf ++ [formatPage pg]
          size := st.size + (formatPage pg).length
          end_p := some pg.1 } := by
      simp [chunkStep, hbe]
    rw [heq]
    refine ⟨?_, ?_, hadj⟩
    · intro b hb
      rw [hbe] at hb
      simp at hb
      rw [hb]
      exact formatPage_ne_nil pg
    · intro lc hl
      have hp := hlink lc hl
      rw [hbe] at hp
      simp at hp
      simp [hp]
  · by_cases hcl : mc < st.size + (formatPage pg).length
    · have heq : chunkStep mc ov st pg =
          { closeChunk ov pg.1 st with
            buf := (closeChunk ov pg.1 st).buf ++ [formatPage pg]
            size := (closeChunk ov pg.1 st).size + (formatPage pg).length
            end_p := some pg.1 } := by
        simp [chunkStep, hbe, hcl]
      rw [heq]
      simp only [closeChunk, closeChunk_tail]
      refine ⟨?_, ?_, ?_⟩
      · intro b hb
        simp only [List.mem_append, List.mem_singleton] at hb
        rcases hb with hb | hb
        · split at hb
          · simp at hb
            subst hb
            assumption
          · simp at hb
        · rw [hb]
          exact formatPage_ne_nil pg
      · intro lc hl
        rw [getLast?_snoc] at hl
        cases hl
        have hflat : ((if pyLastN ov st.buf.flatten ≠ [] then [pyLastN ov st.buf.flatten] else []) ++
            [formatPage pg]).flatten = pyLastN ov st.buf.flatten ++ formatPage pg := by
          split
          · simp
          · next hx =>
            simp at hx
            simp [hx]
        rw [hflat]
        exact List.prefix_append _ _
      · exact chunkAdj_snoc ov st.chunks _ hadj (fun lc hl => hlink lc hl)
    · have heq : chunkStep mc ov st pg =
          { st with
            buf := st.buf ++ [formatPage pg]
            size := st.size + (formatPage pg).length
            end_p := some pg.1 } := by
        simp [chunkStep, hbe, hcl]
      rw [heq]
      refine ⟨?_, ?_, hadj⟩
      · intro b hb
        simp only [List.mem_append, List.mem_singleton] at hb
        rcases hb with hb | hb
        · exact hbufne b hb
        · rw [hb]
          exact formatPage_ne_nil pg
      · intro lc hl
        rw [flatten_snoc]
        exact (hlink lc hl).trans (List.prefix_append _ _)

theorem inv7_fold (mc ov : Nat) (l : List Page) (st : CState) (h : Inv7 ov st) :
    Inv7 ov (l.foldl (chunkStep mc ov) st) := by
  induction l generalizing st with
  | nil => exact h
  | cons a t ih => exact ih _ (inv7_step mc ov st a h)

theorem inv7_init (ov : Nat) : Inv7 ov initCState := by
  refine ⟨?_, ?_, trivial⟩ <;> simp [initCState]

theorem adj_finish (ov : Nat) (st : CState) (h : Inv7 ov st) :
    ChunkAdj ov (chunkFinish st) := by
  obtain ⟨hbufne, hlink, hadj⟩ := h
  unfold chunkFinish
  split
  · exact chunkAdj_snoc ov st.chunks _ hadj (fun lc hl => hlink lc hl)
  · exact hadj

theorem inv1_step (mc ov M : Nat) (hmc : mc ≤ M) (pg : Page)
    (hpg : ov + (formatPage pg).length ≤ M) (st : CState) (h : Inv1 M st) :
    Inv1 M (chunkStep mc ov st pg) := by
  obtain ⟨hsz, hle, hch⟩ := h
  by_cases hbe : st.buf = []
  · have heq : chunkStep mc ov st pg =
        { st with
          start_p := some pg.1
          buf := st.buf ++ [formatPage pg]
          size := st.size + (formatPage pg).length
          end_p := some pg.1 } := by
      simp [chunkStep, hbe]
    rw [heq]
    have hz : st.size = 0 := by
      rw [hsz, hbe]
      simp
    refine ⟨?_, ?_, hch⟩
    · rw [flatten_snoc, hsz]
      simp
    · simp only [List.length_append] at hpg ⊢
      omega
  · by_cases hcl : mc < st.size + (formatPage pg).length
    · have heq : chunkStep mc ov st pg =
          { closeChunk ov pg.1 st with
            buf := (closeChunk ov pg.1 st).buf ++ [formatPage pg]
            size := (closeChunk ov pg.1 st).size + (formatPage pg).length
            end_p := some pg.1 } := by
        simp [chunkStep, hbe, hcl]
      rw [heq]
      simp only [closeChunk, closeChunk_tail]
      have hflat : ((if pyLastN ov st.buf.flatten ≠ [] then [pyLastN ov st.buf.flatten] else []) :
          List (List Char)).flatten = pyLastN ov st.buf.flatten := by
        split
        · simp
        · next hx =>
          simp at hx
          simp [hx]
      have htl : (pyLastN ov st.buf.flatten).length ≤ ov := by
        rw [pyLastN_length]
        omega
      refine ⟨?_, ?_, ?_⟩
      · rw [flatten_snoc, hflat]
        simp
      · simp only [List.length_append]
        omega
      · intro c hc
        simp only [List.mem_append, List.mem_singleton] at hc
        rcases hc with hc | hc
        · exact hch c hc
        · rw [hc]
          simpa [← hsz] using hle
    · have heq : chunkStep mc ov st pg =
          { st with
            buf := st.buf ++ [formatPage pg]
            size := st.size + (formatPage pg).length
            end_p := some pg.1 } := by
        simp [chunkStep, hbe, hcl]
      rw [heq]
      refine ⟨?_, ?_, hch⟩
      · rw [flatten_snoc, hsz]
        simp
      · show st.size + (formatPage pg).length ≤ M
        omega

theorem inv1_fold (mc ov M : Nat) (hmc : mc ≤ M) :
    ∀ (l : List Page) (st : CState), (∀ pg ∈ l, ov + (formatPage pg).length ≤ M) →
      Inv1 M st → Inv1 M (l.foldl (chunkStep mc ov) st) := by
  intro l
  induction l with
  | nil => intro st _ h; exact h
  | cons a t ih =>
    intro st hall h
    exact ih _ (fun pg hm => hall pg (by simp [hm]))
      (inv1_step mc ov M hmc a (hall a (by simp)) st h)

theorem inv1_init (M : Nat) : Inv1 M initCState := by
  refine ⟨?_, ?_, ?_⟩ <;> simp [initCState]

theorem inv1_finish (M : Nat) (st : CState) (h : Inv1 M st) :
    ∀ c ∈ chunkFinish st, c.1.length ≤ M := by
  obtain ⟨hsz, hle, hch⟩ := h
  intro c hc
  unfold chunkFinish at hc
  split at hc
  · simp only [List.mem_append, List.mem_singleton] at hc
    rcases hc with hc | hc
    · exact hch c hc
    · rw [hc]
      simpa [← hsz] using hle
  · exact hch c hc

theorem maxPartLen_mem (pages : List Page) : ∀ pg ∈ pages, (formatPage pg).length ≤ maxPartLen pages := by
  induction pages with
  | nil => simp
  | cons a t ih =>
    intro pg hm
    simp only [List.mem_cons] at hm
    rcases hm with hm | hm
    · rw [hm]
      exact le_max_left _ _
    · exact le_trans (ih pg hm) (le_max_right _ _)

theorem chunk_pages_ok (pages : List Page) (mc ov : Int) (cs : List Chunk)
    (h : chunk_pages pages mc ov = .ok cs) :
    1000 < mc ∧ 0 ≤ ov ∧ ov < mc ∧
      cs = chunkFinish (pages.foldl (chunkStep mc.toNat ov.toNat) initCState) := by
  unfold chunk_pages at h
  by_cases h1 : mc ≤ 1000
  · rw [if_pos h1] at h
    exact absurd h (by simp)
  · rw [if_neg h1] at h
    by_cases h2 : ov < 0 ∨ mc ≤ ov
    · rw [if_pos h2] at h
      exact absurd h (by simp)
    · rw [if_neg h2] at h
      push_neg at h2
      injection h with h3
      exact ⟨by omega, h2.1, h2.2, h3.symm⟩

theorem inv2a_first (mc ov : Nat) (pg : Page) : Inv2a pg.1 (chunkStep mc ov initCState pg) := by
  have heq : chunkStep mc ov initCState pg =
      { initCState with
        start_p := some pg.1
        buf := [formatPage pg]
        size := (formatPage pg).length
        end_p := some pg.1 } := by
    simp [chunkStep, initCState]
  rw [heq]
  refine ⟨rfl, ?_, by simp, by simp [initCState]⟩
  intro b hb
  simp at hb
  rw [hb]
  exact formatPage_ne_nil pg

theorem inv2a_step (mc ov : Nat) (hov : 0 < ov) (p1 : Nat) (st : CState) (pg : Page)
    (h : Inv2a p1 st) : Inv2a p1 (chunkStep mc ov st pg) := by
  obtain ⟨hsp, hbufne, hbuf, hch⟩ := h
  have hbe : ¬ st.buf = [] := hbuf
  by_cases hcl : mc < st.size + (formatPage pg).length
  · have heq : chunkStep mc ov st pg =
        { closeChunk ov pg.1 st with
          buf := (closeChunk ov pg.1 st).buf ++ [formatPage pg]
          size := (closeChunk ov pg.1 st).size + (formatPage pg).length
          end_p := some pg.1 } := by
      simp [chunkStep, hbe, hcl]
    rw [heq]
    simp only [closeChunk, closeChunk_tail]
    have hjoined : st.buf.flatten ≠ [] := flatten_ne_nil hbuf hbufne
    have htail : pyLastN ov st.buf.flatten ≠ [] := pyLastN_ne_nil hov hjoined
    refine ⟨?_, ?_, by simp, ?_⟩
    · simp [htail, hsp]
    · intro b hb
      simp only [List.mem_append, List.mem_singleton] at hb
      rcases hb with hb | hb
      · rw [if_pos htail] at hb
        simp at hb
        rw [hb]
        exact htail
      · rw [hb]
        exact formatPage_ne_nil pg
    · intro c hc
      simp only [List.mem_append, List.mem_singleton] at hc
      rcases hc with hc | hc
      · exact hch c hc
      · rw [hc, hsp]
  · have heq : chunkStep mc ov st pg =
        { st with
          buf := st.buf ++ [formatPage pg]
          size := st.size + (formatPage pg).length
          end_p := some pg.1 } := by
      simp [chunkStep, hbe, hcl]
    rw [heq]
    refine ⟨hsp, ?_, by simp, hch⟩
    intro b hb
    simp only [List.mem_append, List.mem_singleton] at hb
    rcases hb with hb | hb
    · exact hbufne b hb
    · rw [hb]
      exact formatPage_ne_nil pg

theorem inv2a_fold (mc ov : Nat) (hov : 0 < ov) (p1 : Nat) :
    ∀ (l : List Page) (st : CState), Inv2a p1 st → Inv2a p1 (l.foldl (chunkStep mc ov) st) := by
  intro l
  induction l with
  | nil => intro st h; exact h
  | cons a t ih => intro st h; exact ih _ (inv2a_step mc ov hov p1 st a h)

theorem inv2a_finish (p1 : Nat) (hp1 : 0 < p1) (st : CState) (h : Inv2a p1 st) :
    ∀ c ∈ chunkFinish st, c.2.1 = some p1 := by
  obtain ⟨hsp, _, hbuf, hch⟩ := h
  intro c hc
  unfold chunkFinish at hc
  rw [if_pos hbuf] at hc
  simp only [List.mem_append, List.mem_singleton] at hc
  rcases hc with hc | hc
  · exact hch c hc
  · rw [hc, hsp]
    simp only [pyOrD]
    rw [if_neg (by omega)]

theorem inv2b_step (mc : Nat) (pages : List Page) (pg : Page) (hm : pg ∈ pages)
    (st : CState) (h : Inv2b pages st) : Inv2b pages (chunkStep mc 0 st pg) := by
  obtain ⟨hbufp, hch⟩ := h
  by_cases hbe : st.buf = []
  · have heq : chunkStep mc 0 st pg =
        { st with
          start_p := some pg.1
          buf := st.buf ++ [formatPage pg]
          size := st.size + (formatPage pg).length
          end_p := some pg.1 } := by
      simp [chunkStep, hbe]
    rw [heq]
    refine ⟨?_, hch⟩
    intro _
    refine ⟨pg, hm, rfl, ?_⟩
    rw [hbe]
    simp
  · by_cases hcl : mc < st.size + (formatPage pg).length
    · have heq : chunkStep mc 0 st pg =
          { closeChunk 0 pg.1 st with
            buf := (closeChunk 0 pg.1 st).buf ++ [formatPage pg]
            size := (closeChunk 0 pg.1 st).size + (formatPage pg).length
            end_p := some pg.1 } := by
        simp [chunkStep, hbe, hcl]
      rw [heq]
      simp only [closeChunk, closeChunk_tail, pyLastN_zero]
      refine ⟨?_, ?_⟩
      · intro _
        exact ⟨pg, hm, by simp, by simp⟩
      · intro c hc
        simp only [List.mem_append, List.mem_singleton] at hc
        rcases hc with hc | hc
        · exact hch c hc
        · obtain ⟨pg', hm', hsp', hpre'⟩ := hbufp hbe
          exact ⟨pg', hm', by rw [hc, hsp'], by rw [hc]; exact hpre'⟩
    · have heq : chunkStep mc 0 st pg =
          { st with
            buf := st.buf ++ [formatPage pg]
            size := st.size + (formatPage pg).length
            end_p := some pg.1 } := by
        simp [chunkStep, hbe, hcl]
      rw [heq]
      refine ⟨?_, hch⟩
      intro _
      obtain ⟨pg', hm', hsp', hpre'⟩ := hbufp hbe
      refine ⟨pg', hm', hsp', ?_⟩
      rw [flatten_snoc]
      exact hpre'.trans (List.prefix_append _ _)

theorem inv2b_fold (mc : Nat) (pages : List Page) :
    ∀ (l : List Page) (st : CState), (∀ pg ∈ l, pg ∈ pages) →
      Inv2b pages st → Inv2b pages (l.foldl (chunkStep mc 0) st) := by
  intro l
  induction l with
  | nil => intro st _ h; exact h
  | cons a t ih =>
    intro st hall h
    exact ih _ (fun pg hmm => hall pg (by simp [hmm]))
      (inv2b_step mc pages a (hall a (by simp)) st h)

theorem inv2b_finish (pages : List Page) (hpos : ∀ pg ∈ pages, 0 < pg.1) (st : CState)
    (h : Inv2b pages st) :
    ∀ c ∈ chunkFinish st, ∃ pg, pg ∈ pages ∧ c.2.1 = some pg.1 ∧ formatPage pg <+: c.1 := by
  obtain ⟨hbufp, hch⟩ := h
  intro c hc
  unfold chunkFinish at hc
  split at hc
  · next hbuf =>
    simp only [List.mem_append, List.mem_singleton] at hc
    rcases hc with hc | hc
    · exact hch c hc
    · obtain ⟨pg', hm', hsp', hpre'⟩ := hbufp hbuf
      refine ⟨pg', hm', ?_, by rw [hc]; exact hpre'⟩
      rw [hc, hsp']
      simp only [pyOrD]
      rw [if_neg (by have := hpos pg' hm'; omega)]
  · exact hch c hc

/-! ### Ranker lemmas -/

theorem runStartCount_true (l : List Char) :
    runStartCount true l = runStartCount false (l.dropWhile Char.isDigit) := by
  induction l with
  | nil => simp [runStartCount, List.dropWhile]
  | cons c rest ih =>
    by_cases hc : c.isDigit
    · simp [runStartCount, List.dropWhile, hc, ih]
    · simp [runStartCount, List.dropWhile, hc]

theorem digitRunsGo_length (s : List Char) :
    ∀ cur : List Char,
      (digitRunsGo cur s).length
        = (if cur = [] then 0 else 1) + runStartCount (!cur.isEmpty) s := by
  induction s with
  | nil =>
    intro cur
    by_cases hc : cur = [] <;> simp [digitRunsGo, runStartCount, hc]
  | cons c rest ih =>
    intro cur
    by_cases hd : c.isDigit
    · by_cases hc : cur = []
      · simp [digitRunsGo, hd, hc, runStartCount, ih]
      · simp [digitRunsGo, hd, hc, runStartCount, ih, List.isEmpty_iff]
    · by_cases hc : cur = []
      · simp [digitRunsGo, hd, hc, runStartCount, ih]
      · simp [digitRunsGo, hd, hc, runStartCount, ih, List.isEmpty_iff]
        omega

theorem reFindallDigits_length (s : List Char) :
    (reFindallDigits s).length = specRunCount s := by
  have h := digitRunsGo_length s []
  simpa [reFindallDigits, specRunCount] using h

theorem hasCurrency_iff (s : List Char) :
    hasCurrency s = true ↔
      ∃ i d, s.get? i = some '$' ∧ s.get? (i + 1) = some d ∧ d.isDigit = true := by
  induction s with
  | nil => simp [hasCurrency]
  | cons a rest ih =>
    simp only [hasCurrency, Bool.or_eq_true, Bool.and_eq_true, decide_eq_true_eq, ih]
    constructor
    · rintro (⟨ha, hd⟩ | ⟨i, d, h1, h2, h3⟩)
      · cases rest with
        | nil => simp [List.headD] at hd
        | cons b t =>
          refine ⟨0, b, ?_, ?_, ?_⟩
          · simp [ha]
          · simp
          · simpa [List.headD] using hd
      · exact ⟨i + 1, d, by simpa using h1, by simpa using h2, h3⟩
    · rintro ⟨i, d, h1, h2, h3⟩
      cases i with
      | zero =>
        left
        simp only [List.get?] at h1 h2
        cases rest with
        | nil => simp at h2
        | cons b t =>
          simp at h1 h2
          refine ⟨h1, ?_⟩
          simp [List.headD, h2, h3]
      | succ n =>
        right
        exact ⟨n, d, by simpa using h1, by simpa using h2, h3⟩

/-! ### Stable sort lemmas -/

theorem stInsert_mem (prec : α → α → Bool) (x : α) (l : List α) :
    ∀ y ∈ stInsert prec x l, y = x ∨ y ∈ l := by
  induction l with
  | nil =>
    intro y hy
    simp [stInsert] at hy
    exact Or.inl hy
  | cons a t ih =>
    intro y hy
    simp only [stInsert] at hy
    split at hy
    · simp only [List.mem_cons] at hy
      rcases hy with hy | hy
      · exact Or.inr (by simp [hy])
      · rcases ih y hy with h | h
        · exact Or.inl h
        · exact Or.inr (by simp [h])
    · simp only [List.mem_cons] at hy
      rcases hy with hy | hy
      · exact Or.inl hy
      · exact Or.inr (List.mem_cons.mpr hy)

theorem stInsert_pairwise (f : α → Nat) (x : α) (l : List α)
    (h : l.Pairwise (fun a b => f b ≤ f a)) :
    (stInsert (fun a b => f b < f a) x l).Pairwise (fun a b => f b ≤ f a) := by
  induction l with
  | nil => simp [stInsert]
  | cons y ys ih =>
    rw [List.pairwise_cons] at h
    obtain ⟨hy, hys⟩ := h
    simp only [stInsert]
    split
    · next hprec =>
      simp only [decide_eq_true_eq] at hprec
      rw [List.pairwise_cons]
      refine ⟨?_, ih hys⟩
      intro z hz
      rcases stInsert_mem _ x ys z hz with h | h
      · rw [h]
        omega
      · exact hy z h
    · next hprec =>
      simp only [decide_eq_true_eq] at hprec
      rw [List.pairwise_cons]
      refine ⟨?_, List.pairwise_cons.mpr ⟨hy, hys⟩⟩
      intro z hz
      simp only [List.mem_cons] at hz
      rcases hz with hz | hz
      · rw [hz]
        omega
      · have := hy z hz
        omega

theorem stSort_pairwise (f : α → Nat) (l : List α) :
    (stSort (fun a b => f b < f a) l).Pairwise (fun a b => f b ≤ f a) := by
  induction l with
  | nil => simp [stSort]
  | cons x xs ih => exact stInsert_pairwise f x _ ih

theorem stInsert_filter (f : α → Nat) (sc : Nat) (x : α) (l : List α) :
    (stInsert (fun a b => f b < f a) x l).filter (fun a => f a == sc)
      = if f x == sc then x :: l.filter (fun a => f a == sc)
        else l.filter (fun a => f a == sc) := by
  induction l with
  | nil =>
    by_cases hx : f x = sc
    · have hx2 : (f x == sc) = true := by simp [hx]
      simp [stInsert, List.filter, hx2, hx]
    · have hx2 : (f x == sc) = false := by simp [hx]
      simp [stInsert, List.filter, hx2, hx]
  | cons y ys ih =>
    simp only [stInsert]
    split
    · next hprec =>
      simp only [decide_eq_true_eq] at hprec
      by_cases hx : f x = sc
      · have hy : (f y == sc) = false := by
          simp only [beq_eq_false_iff_ne, ne_eq]
          omega
        simp only [List.filter_cons, hy, ih]
        simp [hx]
      · have hx2 : (f x == sc) = false := by simp [hx]
        simp only [List.filter_cons, ih, hx2]
        simp [hx]
    · next hprec =>
      by_cases hx : f x = sc
      · have hx2 : (f x == sc) = true := by simp [hx]
        simp [List.filter_cons, hx2, hx]
      · have hx2 : (f x == sc) = false := by simp [hx]
        simp [List.filter_cons, hx2, hx]

theorem stSort_filter (f : α → Nat) (sc : Nat) (l : List α) :
    (stSort (fun a b => f b < f a) l).filter (fun a => f a == sc)
      = l.filter (fun a => f a == sc) := by
  induction l with
  | nil => simp [stSort]
  | cons x xs ih =>
    simp only [stSort]
    rw [stInsert_filter, ih]
    by_cases hx : f x = sc
    · have hx2 : (f x == sc) = true := by simp [hx]
      simp [List.filter_cons, hx2]
    · have hx2 : (f x == sc) = false := by simp [hx]
      simp [List.filter_cons, hx2]

/-! ### Summariser lemmas -/

theorem digitChar_isDigit (d : Nat) : (digitChar d).isDigit = true := by
  unfold digitChar
  have hm : d % 10 < 10 := Nat.mod_lt _ (by omega)
  generalize hgen : d % 10 = m at hm ⊢
  interval_cases m <;> decide

theorem natDigitsF_head (fuel : Nat) :
    ∀ n, n < fuel → ∃ d t, natDigitsF fuel n = d :: t ∧ d.isDigit = true := by
  induction fuel with
  | zero => intro n hn; omega
  | succ fuel ih =>
    intro n hn
    by_cases h : n < 10
    · refine ⟨digitChar n, [], ?_, digitChar_isDigit n⟩
      simp [natDigitsF, h]
    · have hdiv : n / 10 < fuel := by
        have h1 : n / 10 < n := Nat.div_lt_self (by omega) (by omega)
        omega
      obtain ⟨d, t, hdt, hd⟩ := ih (n / 10) hdiv
      refine ⟨d, t ++ [digitChar (n % 10)], ?_, hd⟩
      simp [natDigitsF, h, hdt]

theorem natDigits_head (n : Nat) :
    ∃ d t, natDigits n = d :: t ∧ d.isDigit = true :=
  natDigitsF_head (n + 1) n (by omega)

theorem tagFor_shape (sp ep : Nat) :
    ∃ d rest, tagFor sp ep = ' ' :: '[' :: 'p' :: '.' :: d :: rest ∧ d.isDigit = true := by
  obtain ⟨d, t, hdt, hd⟩ := natDigits_head sp
  unfold tagFor
  by_cases h : sp = ep
  · rw [if_pos h, hdt]
    exact ⟨d, t ++ [']'], by simp, hd⟩
  · rw [if_neg h, hdt]
    exact ⟨d, t ++ '-' :: (natDigits ep ++ [']']), by simp, hd⟩

theorem hasPageTag_append (x : List Char) (d : Char) (rest : List Char) (hd : d.isDigit = true) :
    hasPageTagPat (x ++ '[' :: 'p' :: '.' :: d :: rest) = true := by
  induction x with
  | nil => simp [hasPageTagPat, tagHere, hd]
  | cons c t ih =>
    rw [List.cons_append]
    show (tagHere (c :: (t ++ '[' :: 'p' :: '.' :: d :: rest))
      || hasPageTagPat (t ++ '[' :: 'p' :: '.' :: d :: rest)) = true
    rw [ih]
    simp

theorem ensure_tag_hasTag (sp ep : Nat) (s : List Char) :
    hasPageTagPat (ensure_tag (tagFor sp ep) s) = true := by
  unfold ensure_tag
  split
  · next h => exact h
  · obtain ⟨d, rest, heq, hd⟩ := tagFor_shape sp ep
    rw [heq]
    have hsplit : rstripDots s ++ ' ' :: '[' :: 'p' :: '.' :: d :: rest
        = (rstripDots s ++ [' ']) ++ '[' :: 'p' :: '.' :: d :: rest := by
      simp
    rw [hsplit]
    exact hasPageTag_append _ d rest hd

theorem top_sentences_length (text : List Char) (k : Nat) :
    (top_sentences text k).length ≤ k := by
  unfold top_sentences
  simp only [List.length_map]
  exact List.length_take_le _ _

theorem enumFrom_map_shift (f : Nat × SChunk → List (List Char)) :
    ∀ (cs : List SChunk) (n : Nat),
      (cs.enumFrom (n + 1)).map f = (cs.enumFrom n).map (fun ic => f (ic.1 + 1, ic.2)) := by
  intro cs
  induction cs with
  | nil => intro n; simp
  | cons c t ih =>
    intro n
    simp only [List.enumFrom, List.map_cons]
    rw [ih (n + 1)]

theorem summarise_chunks_cons (template : List Char) (gen : Nat → List Char → Option (List Char))
    (c : SChunk) (cs : List SChunk) :
    summarise_chunks template gen (c :: cs)
      = (processChunk template gen 1 c).1 ++ summarise_chunks template (genShift gen) cs := by
  unfold summarise_chunks
  simp only [List.enumFrom, List.map_cons, List.flatten_cons]
  congr 1
  rw [enumFrom_map_shift (fun ic => (processChunk template gen ic.1 ic.2).1) cs 1]
  rfl

/-! ### Claim theorems -/

/-- C3: `score_value s` is the sum of 5 times the capped count of maximal
digit runs, 10 per percentage-or-basis-point match, a flat 15 when some `$`
is immediately followed by a digit, and 5 per KPI keyword occurring as a
case-insensitive substring; rounding to one decimal is the identity on these
integer scores.  In particular the KPI-laden example scores strictly higher
than the bland one. -/
theorem score_value_formula_and_example :
    (∀ s, score_value s =
        5 * min (specRunCount s) 5 + 10 * countPct s
          + (if hasCurrency s then 15 else 0)
          + 5 * kpiTerms.countP (fun k => containsSub k (s.map Char.toLower)))
    ∧ (∀ s, hasCurrency s = true ↔
        ∃ i d, s.get? i = some '$' ∧ s.get? (i + 1) = some d ∧ d.isDigit = true)
    ∧ score_value "Revenue grew 15% to $2.3M, up 8pp YoY".toList
        > score_value "Things were fine this quarter".toList := by
  refine ⟨?_, hasCurrency_iff, by decide⟩
  intro s
  simp only [score_value]
  rw [reFindallDigits_length]
  ring

/-- C6 (counterexample): the claim accepts `max_chars = 1000` with
`overlap = 0`, but the code rejects it (`max_chars <= 1000` raises). -/
theorem config_boundary_1000_rejected :
    isCfgError (chunk_pages [] 1000 0) = true ∧ (0 : Int) ≤ 0 ∧ (0 : Int) < 1000 := by
  decide

/-- C6 (amended): `chunk_pages` raises a configuration error exactly when
`max_chars ≤ 1000` or `overlap` lies outside `[0, max_chars)`; when the
parameters are accepted it runs the loop on them unchanged (no clamping). -/
theorem config_error_iff :
    ∀ (pages : List Page) (mc ov : Int),
      (isCfgError (chunk_pages pages mc ov) = true ↔ (mc ≤ 1000 ∨ ov < 0 ∨ mc ≤ ov))
      ∧ (1000 < mc → 0 ≤ ov → ov < mc →
          chunk_pages pages mc ov
            = .ok (chunkFinish (pages.foldl (chunkStep mc.toNat ov.toNat) initCState))) := by
  intro pages mc ov
  constructor
  · unfold chunk_pages
    by_cases h1 : mc ≤ 1000
    · rw [if_pos h1]
      simp [isCfgError, h1]
    · rw [if_neg h1]
      by_cases h2 : ov < 0 ∨ mc ≤ ov
      · rw [if_pos h2]
        simp only [isCfgError, true_iff]
        right
        exact h2
      · rw [if_neg h2]
        simp only [isCfgError, Bool.false_eq_true, false_iff]
        push_neg at h2
        omega
  · intro hA hB hC
    unfold chunk_pages
    rw [if_neg (by omega), if_neg (by omega)]

/-- C6 (witness): concrete accepted configuration. -/
theorem config_error_iff_witness :
    ((1000 : Int) < 1001 ∧ (0 : Int) ≤ 0 ∧ (0 : Int) < 1001)
    ∧ chunk_pages ([] : List Page) 1001 0
        = .ok (chunkFinish (([] : List Page).foldl
            (chunkStep (1001 : Int).toNat (0 : Int).toNat) initCState)) :=
  ⟨⟨by decide, by decide, by decide⟩,
    (config_error_iff [] 1001 0).2 (by decide) (by decide) (by decide)⟩

/-- C9: ranking maps each point to its score and stable-sorts descending by
score: the result is pairwise non-increasing, and the subsequence at any
fixed score equals the corresponding subsequence of the scored input, so
equal-score points keep their original relative order. -/
theorem rank_points_sorted_stable :
    ∀ pts : List (List Char),
      (rank_points pts).Pairwise (fun a b => b.2 ≤ a.2)
      ∧ ∀ sc : Nat,
          (rank_points pts).filter (fun a => a.2 == sc)
            = (pts.map (fun p => (p, score_value p))).filter (fun a => a.2 == sc) := by
  intro pts
  constructor
  · simp only [rank_points]
    exact stSort_pairwise (fun x : List Char × Nat => x.2) _
  · intro sc
    simp only [rank_points]
    exact stSort_filter (fun x : List Char × Nat => x.2) sc _

/-- C10: a chunk whose text strips to nothing is skipped: no generation call
is made (the Boolean is `false`), no fallback runs, and it contributes no
points. -/
theorem blank_chunk_skipped :
    ∀ (template : List Char) (gen : Nat → List Char → Option (List Char)) (idx : Nat)
      (t : List Char) (sp ep : Nat),
      pyStrip t = [] → processChunk template gen idx (t, sp, ep) = ([], false) := by
  intro template gen idx t sp ep h
  simp [processChunk, h]

/-- C10 (witness): a whitespace-only chunk at concrete input. -/
theorem blank_chunk_skipped_witness :
    pyStrip "  \t\n ".toList = []
    ∧ processChunk [] genNone 1 ("  \t\n ".toList, 1, 2) = ([], false) :=
  ⟨by decide, blank_chunk_skipped [] genNone 1 "  \t\n ".toList 1 2 (by decide)⟩

/-- C5 (counterexample): the claim strips exactly one trailing period, but
`rstrip(".")` strips them all: `"- Growth was flat.."` loses both periods,
not just the last one. -/
theorem ensure_tag_strips_all_periods :
    ensure_tag (tagFor 3 3) "- Growth was flat..".toList = "- Growth was flat [p.3]".toList
    ∧ "- Growth was flat [p.3]".toList ≠ "- Growth was flat. [p.3]".toList := by
  refine ⟨by decide, by decide⟩

/-- C5 (amended): a point already showing `[p.` plus a digit is left alone;
otherwise all trailing periods are stripped and the chunk tag is appended.
The claim's concrete example holds: the two-line raw output yields exactly
`- Revenue grew 12% [p.3]`. -/
theorem ensure_tag_behaviour :
    (∀ tag s, hasPageTagPat s = true → ensure_tag tag s = s)
    ∧ (∀ tag s, hasPageTagPat s = false →
        ensure_tag tag s = (s.reverse.dropWhile (fun c => c = '.')).reverse ++ tag)
    ∧ processChunk []
        (fun _ _ => some "- Revenue grew 12%.\nSome non-bullet narration.".toList) 1
        ("x".toList, 3, 3)
      = (["- Revenue grew 12% [p.3]".toList], true) := by
  refine ⟨?_, ?_, by decide⟩
  · intro tag s h
    simp [ensure_tag, h]
  · intro tag s h
    simp [ensure_tag, h, rstripDots]

/-- C5 (witness): a point that already carries a tag is untouched. -/
theorem ensure_tag_behaviour_witness :
    hasPageTagPat "- x [p.3]".toList = true
    ∧ ensure_tag (tagFor 1 1) "- x [p.3]".toList = "- x [p.3]".toList :=
  ⟨by decide, ensure_tag_behaviour.1 (tagFor 1 1) "- x [p.3]".toList (by decide)⟩

/-- C4: for a non-blank chunk, the fallback sentence selector runs exactly
when bullet extraction over the raw output yields nothing; it operates on the
chunk's input text, returns at most six points, and every returned point
carries a page tag (the chunk-range tag appended by `_ensure_tag` when it was
missing). -/
theorem fallback_exactly_when_no_bullets :
    ∀ (template : List Char) (gen : Nat → List Char → Option (List Char)) (idx : Nat)
      (t : List Char) (sp ep : Nat) (raw : List Char),
      pyStrip t ≠ [] →
      raw = (gen idx (format_prompt template (pyStrip t) sp ep)).getD [] →
      ((extract_bullets raw = [] →
          (processChunk template gen idx (t, sp, ep)).1
            = (top_sentences (pyStrip t) 6).map (ensure_tag (tagFor sp ep))
          ∧ (processChunk template gen idx (t, sp, ep)).1.length ≤ 6
          ∧ ∀ q ∈ (processChunk template gen idx (t, sp, ep)).1, hasPageTagPat q = true)
        ∧ (extract_bullets raw ≠ [] →
            (processChunk template gen idx (t, sp, ep)).1
              = (extract_bullets raw).map (ensure_tag (tagFor sp ep)))) := by
  intro template gen idx t sp ep raw hne hraw
  constructor
  · intro hb
    have h1 : (processChunk template gen idx (t, sp, ep)).1
        = (top_sentences (pyStrip t) 6).map (ensure_tag (tagFor sp ep)) := by
      simp [processChunk, hne, ← hraw, hb]
    refine ⟨h1, ?_, ?_⟩
    · rw [h1]
      simp only [List.length_map]
      exact top_sentences_length _ _
    · rw [h1]
      intro q hq
      simp only [List.mem_map] at hq
      obtain ⟨p, _, hpq⟩ := hq
      rw [← hpq]
      exact ensure_tag_hasTag sp ep p
  · intro hb
    simp [processChunk, hne, ← hraw, hb]

/-- C4 (witness): an always-failing backend gives empty raw output,
routing a concrete chunk into the fallback. -/
theorem fallback_exactly_when_no_bullets_witness :
    pyStrip "Revenue up 10% to $50M. Filler text here.".toList ≠ []
    ∧ ((processChunk [] genNone 1 ("Revenue up 10% to $50M. Filler text here.".toList, 1, 2)).1
          = (top_sentences (pyStrip "Revenue up 10% to $50M. Filler text here.".toList) 6).map
              (ensure_tag (tagFor 1 2))
        ∧ (processChunk [] genNone 1
            ("Revenue up 10% to $50M. Filler text here.".toList, 1, 2)).1.length ≤ 6
        ∧ ∀ q ∈ (processChunk [] genNone 1
            ("Revenue up 10% to $50M. Filler text here.".toList, 1, 2)).1,
            hasPageTagPat q = true) :=
  ⟨by decide,
    (fallback_exactly_when_no_bullets [] genNone 1
      "Revenue up 10% to $50M. Filler text here.".toList 1 2 [] (by decide) rfl).1 rfl⟩

/-- C8: the per-chunk loop is compositional — the pipeline always continues
past each chunk — and a failed backend call (`none` from the oracle, the
`except` branch) yields empty raw output, which routes that chunk into the
fallback sentence selector on its input text. -/
theorem generation_failure_routes_to_fallback :
    (∀ (template : List Char) (gen : Nat → List Char → Option (List Char))
        (c : SChunk) (cs : List SChunk),
        summarise_chunks template gen (c :: cs)
          = (processChunk template gen 1 c).1 ++ summarise_chunks template (genShift gen) cs)
    ∧ (∀ (template : List Char) (gen : Nat → List Char → Option (List Char)) (idx : Nat)
        (t : List Char) (sp ep : Nat),
        pyStrip t ≠ [] →
        gen idx (format_prompt template (pyStrip t) sp ep) = none →
        (processChunk template gen idx (t, sp, ep)).1
          = (top_sentences (pyStrip t) 6).map (ensure_tag (tagFor sp ep))) := by
  constructor
  · exact summarise_chunks_cons
  · intro template gen idx t sp ep hne hgen
    simp [processChunk, hne, hgen, extract_bullets, pySplitlines]

/-- C8 (witness): one-chunk pipeline decomposition and a concrete failing
call routed to the fallback. -/
theorem generation_failure_routes_to_fallback_witness :
    summarise_chunks [] genNone [("Revenue up 10%.".toList, 1, 1)]
      = (processChunk [] genNone 1 ("Revenue up 10%.".toList, 1, 1)).1
          ++ summarise_chunks [] (genShift genNone) []
    ∧ pyStrip "Guidance raised.".toList ≠ []
    ∧ (processChunk [] genNone 2 ("Guidance raised.".toList, 3, 4)).1
        = (top_sentences (pyStrip "Guidance raised.".toList) 6).map (ensure_tag (tagFor 3 4)) :=
  ⟨generation_failure_routes_to_fallback.1 [] genNone ("Revenue up 10%.".toList, 1, 1) [],
    by decide,
    generation_failure_routes_to_fallback.2 [] genNone 2 "Guidance raised.".toList 3 4
      (by decide) rfl⟩

/-- C1 (counterexample): with `max_chars = 1001`, `overlap = 500`, the second
chunk is a 500-character overlap tail plus one page whose formatted text is
600 characters (within budget): 1100 characters, exceeding `max_chars`
although no single page exceeds it. -/
theorem chunk_budget_counterexample :
    (chunksOf (chunk_pages [(1, List.replicate 494 'a'), (2, List.replicate 592 'b')] 1001 500)).map
        (fun c : Chunk => c.1.length) = [502, 1100]
    ∧ (formatPage (2, List.replicate 592 'b')).length ≤ 1001
    ∧ ¬ (1100 : Nat) ≤ 1001 := by
  refine ⟨by decide, by decide, by decide⟩

/-- C1 (amended): every chunk's text length is bounded by
`max(max_chars, overlap + L)` where `L` is the largest formatted page length;
the budget can be exceeded by `overlap` beyond a single page, not only by an
oversized page alone. -/
theorem chunk_size_bounded (pages : List Page) (mc ov : Int) (cs : List Chunk)
    (hok : chunk_pages pages mc ov = .ok cs) :
    ∀ c ∈ cs, c.1.length ≤ max mc.toNat (ov.toNat + maxPartLen pages) := by
  obtain ⟨hA, hB, hC, hcs⟩ := chunk_pages_ok pages mc ov cs hok
  subst hcs
  intro c hc
  refine inv1_finish _ _ ?_ c hc
  refine inv1_fold mc.toNat ov.toNat _ (le_max_left _ _) pages initCState ?_ (inv1_init _)
  intro pg hm
  have h1 := maxPartLen_mem pages pg hm
  have h2 : ov.toNat + (formatPage pg).length ≤ ov.toNat + maxPartLen pages := by omega
  exact le_trans h2 (le_max_right _ _)

/-- C1 (witness): the bound holds on the counterexample run. -/
theorem chunk_size_bounded_witness :
    chunk_pages [(1, List.replicate 494 'a'), (2, List.replicate 592 'b')] 1001 500
      = .ok (chunksOf (chunk_pages [(1, List.replicate 494 'a'), (2, List.replicate 592 'b')] 1001 500))
    ∧ ∀ c ∈ chunksOf (chunk_pages [(1, List.replicate 494 'a'), (2, List.replicate 592 'b')] 1001 500),
        c.1.length ≤ max (1001 : Int).toNat
          ((500 : Int).toNat + maxPartLen [(1, List.replicate 494 'a'), (2, List.replicate 592 'b')]) :=
  ⟨rfl, fun c hc => chunk_size_bounded _ 1001 500 _ rfl c hc⟩

/-- C2 (counterexample): chunk 0 spans pages 1-2 and its non-empty tail
seeds chunk 1, so the claim demands chunk 1 start at page 2 (the page that
produced the tail); the code keeps the old start page 1. -/
theorem start_page_counterexample :
    (chunksOf (chunk_pages [(1, List.replicate 326 'a'), (2, List.replicate 326 'b'),
          (3, List.replicate 326 'c')] 1001 10)).map (fun c : Chunk => (c.2.1, c.2.2))
        = [(some 1, some 2), (some 1, some 3)]
    ∧ pyLastN 10 ((chunksOf (chunk_pages [(1, List.replicate 326 'a'), (2, List.replicate 326 'b'),
          (3, List.replicate 326 'c')] 1001 10)).getD 0 dummyChunk).1 ≠ []
    ∧ (some 1 : Option Nat) ≠ some 2 := by
  refine ⟨by decide, by decide, by decide⟩

/-- C2 (amended): with a positive overlap the tail is never empty and
`start_p` is frozen at the first page, so every chunk records the first
page's number as its start page; with zero overlap the tail is always empty
and each chunk's start page is the page whose formatted text begins the
chunk. -/
theorem start_page_bookkeeping :
    (∀ (pages : List Page) (mc ov : Int) (cs : List Chunk) (p1 : Nat) (t1 : List Char)
        (rest : List Page),
        chunk_pages pages mc ov = .ok cs → 0 < ov → pages = (p1, t1) :: rest → 0 < p1 →
        ∀ c ∈ cs, c.2.1 = some p1)
    ∧ (∀ (pages : List Page) (mc : Int) (cs : List Chunk),
        chunk_pages pages mc 0 = .ok cs → (∀ pg ∈ pages, 0 < pg.1) →
        ∀ c ∈ cs, ∃ pg, pg ∈ pages ∧ c.2.1 = some pg.1 ∧ formatPage pg <+: c.1) := by
  constructor
  · intro pages mc ov cs p1 t1 rest hok hov hpages hp1 c hc
    obtain ⟨hA, hB, hC, hcs⟩ := chunk_pages_ok pages mc ov cs hok
    subst hcs
    subst hpages
    have hov2 : 0 < ov.toNat := by omega
    have hfold : Inv2a p1 ((((p1, t1) :: rest)).foldl (chunkStep mc.toNat ov.toNat) initCState) := by
      rw [List.foldl_cons]
      exact inv2a_fold mc.toNat ov.toNat hov2 p1 rest _ (inv2a_first mc.toNat ov.toNat (p1, t1))
    exact inv2a_finish p1 hp1 _ hfold c hc
  · intro pages mc cs hok hpos c hc
    obtain ⟨hA, hB, hC, hcs⟩ := chunk_pages_ok pages mc 0 cs hok
    subst hcs
    have hfold : Inv2b pages (pages.foldl (chunkStep mc.toNat (0 : Int).toNat) initCState) := by
      refine inv2b_fold mc.toNat pages pages initCState (fun pg hm => hm) ?_
      constructor
      · intro hb
        simp [initCState] at hb
      · intro c2 hc2
        simp [initCState] at hc2
    exact inv2b_finish pages hpos _ hfold c hc

/-- C2 (witness): concrete runs for the positive-overlap and zero-overlap
halves. -/
theorem start_page_bookkeeping_witness :
    ((0 : Int) < 10 ∧ (0 : Nat) < 1
      ∧ ((chunksOf (chunk_pages [(1, List.replicate 326 'a'), (2, List.replicate 326 'b'),
            (3, List.replicate 326 'c')] 1001 10)).getD 1 dummyChunk).2.1 = some 1)
    ∧ ((∀ pg ∈ [((1 : Nat), "hello".toList), (2, "world".toList)], 0 < pg.1)
      ∧ ∃ pg, pg ∈ [((1 : Nat), "hello".toList), (2, "world".toList)]
          ∧ ((chunksOf (chunk_pages [(1, "hello".toList), (2, "world".toList)] 1001 0)).getD 0
              dummyChunk).2.1 = some pg.1
          ∧ formatPage pg <+: ((chunksOf (chunk_pages [(1, "hello".toList),
              (2, "world".toList)] 1001 0)).getD 0 dummyChunk).1) :=
  ⟨⟨by decide, by decide,
    start_page_bookkeeping.1
      [(1, List.replicate 326 'a'), (2, List.replicate 326 'b'), (3, List.replicate 326 'c')]
      1001 10 _ 1 (List.replicate 326 'a') [(2, List.replicate 326 'b'), (3, List.replicate 326 'c')]
      rfl (by decide) rfl (by decide) _ (by decide)⟩,
    ⟨by decide,
      start_page_bookkeeping.2 [(1, "hello".toList), (2, "world".toList)] 1001 _ rfl
        (by decide) _ (by decide)⟩⟩

/-- C7: whenever a chunk has a successor, the successor's text begins with
the last `overlap` characters of the chunk's text; that tail is a suffix of
the chunk and its length is strictly below `max_chars`. -/
theorem overlap_tail_links_chunks (pages : List Page) (mc ov : Int) (cs : List Chunk)
    (hok : chunk_pages pages mc ov = .ok cs) :
    ∀ i (h1 : i < cs.length) (h2 : i + 1 < cs.length),
      pyLastN ov.toNat (cs.get ⟨i, h1⟩).1 <+: (cs.get ⟨i + 1, h2⟩).1
      ∧ pyLastN ov.toNat (cs.get ⟨i, h1⟩).1 <:+ (cs.get ⟨i, h1⟩).1
      ∧ (pyLastN ov.toNat (cs.get ⟨i, h1⟩).1).length < mc.toNat := by
  obtain ⟨hA, hB, hC, hcs⟩ := chunk_pages_ok pages mc ov cs hok
  subst hcs
  intro i h1 h2
  have hinv := inv7_fold mc.toNat ov.toNat pages initCState (inv7_init ov.toNat)
  have hadj := adj_finish ov.toNat _ hinv
  refine ⟨chunkAdj_get ov.toNat _ hadj i h1 h2, pyLastN_suffix _ _, ?_⟩
  rw [pyLastN_length]
  omega

/-- C7 (witness): a two-chunk run with `overlap = 200`; chunk 1 starts with
the last 200 characters of chunk 0. -/
theorem overlap_tail_links_chunks_witness :
    chunk_pages [(1, List.replicate 494 'a'), (2, List.replicate 592 'b')] 1001 200
      = .ok (chunksOf (chunk_pages [(1, List.replicate 494 'a'), (2, List.replicate 592 'b')] 1001 200))
    ∧ (pyLastN (200 : Int).toNat
          ((chunksOf (chunk_pages [(1, List.replicate 494 'a'),
              (2, List.replicate 592 'b')] 1001 200)).get ⟨0, by decide⟩).1
        <+: ((chunksOf (chunk_pages [(1, List.replicate 494 'a'),
              (2, List.replicate 592 'b')] 1001 200)).get ⟨0 + 1, by decide⟩).1
      ∧ pyLastN (200 : Int).toNat
          ((chunksOf (chunk_pages [(1, List.replicate 494 'a'),
              (2, List.replicate 592 'b')] 1001 200)).get ⟨0, by decide⟩).1
        <:+ ((chunksOf (chunk_pages [(1, List.replicate 494 'a'),
              (2, List.replicate 592 'b')] 1001 200)).get ⟨0, by decide⟩).1
      ∧ (pyLastN (200 : Int).toNat
          ((chunksOf (chunk_pages [(1, List.replicate 494 'a'),
              (2, List.replicate 592 'b')] 1001 200)).get ⟨0, by decide⟩).1).length
          < (1001 : Int).toNat) :=
  ⟨rfl,
    overlap_tail_links_chunks [(1, List.replicate 494 'a'), (2, List.replicate 592 'b')]
      1001 200 _ rfl 0 (by decide) (by decide)⟩

end QRS
